import Mathlib

/-!
# Verification of the `tinystr` packed ASCII string library

A shallow embedding of `src/tinystr.rs`: short ASCII strings packed into a
single unsigned integer (capacities 4, 8, 16 bytes over u32/u64/u128), with
bit-parallel (word-at-a-time) case conversion, alphanumeric classification,
validation, decoding and ordering.

Modelling conventions:
* A machine word of the capacity-`n` variant (`n` bytes, `8*n` bits) is a
  `Nat` below `2 ^ (8*n)`; wrapping arithmetic is written with explicit
  `% 2^(8*n)`.
* Byte lane `i` of a word `w` is `w / 256^i % 256`; lane 0 holds the first
  character.  The code runs on a little-endian host (its own comments note
  the big-endian case is not implemented), so `to_le`/`from_le` are the
  identity and `to_be` is byte reversal.
* A Rust `&str` argument is modelled as its UTF-8 byte sequence,
  `List Nat` with entries below 256, listed first byte first.
-/

namespace TinyStr

/-! ## Byte sequences and words -/

/-- The word packing a byte sequence little-endian: entry 0 is the least
significant byte (character position 0). -/
def ofBytes : List Nat → Nat
  | [] => 0
  | b :: bs => b + 256 * ofBytes bs

/-- Byte lane `i` of a word. -/
def getByte (w i : Nat) : Nat := w / 256 ^ i % 256

/-- The `n` byte lanes of a word, lane 0 first. -/
def toBytes (n w : Nat) : List Nat := (List.range n).map (getByte w)

theorem ofBytes_nil : ofBytes [] = 0 := rfl

theorem ofBytes_cons (b : Nat) (bs : List Nat) :
    ofBytes (b :: bs) = b + 256 * ofBytes bs := rfl

theorem ofBytes_append (xs ys : List Nat) :
    ofBytes (xs ++ ys) = ofBytes xs + 256 ^ xs.length * ofBytes ys := by
  induction xs with
  | nil => simp [ofBytes]
  | cons a as ih =>
    simp only [List.cons_append, ofBytes_cons, ih, List.length_cons, pow_succ]
    ring

theorem ofBytes_replicate_zero (k : Nat) : ofBytes (List.replicate k 0) = 0 := by
  induction k with
  | zero => rfl
  | succ k ih => simp [List.replicate_succ, ofBytes_cons, ih]

theorem ofBytes_append_zeros (s : List Nat) (k : Nat) :
    ofBytes (s ++ List.replicate k 0) = ofBytes s := by
  simp [ofBytes_append, ofBytes_replicate_zero]

theorem ofBytes_lt (l : List Nat) (h : ∀ b ∈ l, b < 256) :
    ofBytes l < 256 ^ l.length := by
  induction l with
  | nil => simp [ofBytes]
  | cons a as ih =>
    have ha : a < 256 := h a (by simp)
    have has : ofBytes as < 256 ^ as.length := ih (fun b hb => h b (by simp [hb]))
    simp only [ofBytes_cons, List.length_cons, pow_succ]
    calc a + 256 * ofBytes as < 256 + 256 * ofBytes as := by omega
    _ = 256 * (ofBytes as + 1) := by ring
    _ ≤ 256 * 256 ^ as.length := by
        have : ofBytes as + 1 ≤ 256 ^ as.length := has
        exact Nat.mul_le_mul_left _ this
    _ = 256 ^ as.length * 256 := by ring

theorem ofBytes_eq_zero (l : List Nat) :
    ofBytes l = 0 ↔ ∀ b ∈ l, b = 0 := by
  induction l with
  | nil => simp [ofBytes]
  | cons a as ih =>
    simp only [ofBytes_cons, List.mem_cons]
    constructor
    · intro h
      have ha : a = 0 := by omega
      have has : ofBytes as = 0 := by omega
      intro b hb
      rcases hb with hb | hb
      · omega
      · exact ih.mp has b hb
    · intro h
      have ha : a = 0 := h a (Or.inl rfl)
      have has : ofBytes as = 0 := ih.mpr (fun b hb => h b (Or.inr hb))
      omega

theorem ofBytes_le_of_forall₂ (xs ys : List Nat) (h : List.Forall₂ (· ≤ ·) xs ys) :
    ofBytes xs ≤ ofBytes ys := by
  induction h with
  | nil => exact Nat.le_refl _
  | cons hab _ ih => simp only [ofBytes_cons]; omega

theorem ofBytes_add (xs ys : List Nat) (h : xs.length = ys.length) :
    ofBytes xs + ofBytes ys = ofBytes (List.zipWith (· + ·) xs ys) := by
  induction xs generalizing ys with
  | nil =>
    cases ys with
    | nil => simp [ofBytes]
    | cons b bs => simp at h
  | cons a as ih =>
    cases ys with
    | nil => simp at h
    | cons b bs =>
      simp only [List.length_cons, Nat.succ_inj] at h
      simp only [List.zipWith_cons_cons, ofBytes_cons, ← ih bs h]
      ring

theorem ofBytes_sub (xs ys : List Nat) (h : List.Forall₂ (· ≤ ·) ys xs) :
    ofBytes xs - ofBytes ys = ofBytes (List.zipWith (fun a b => a - b) xs ys) := by
  induction h with
  | nil => rfl
  | @cons b a bs as hba htail ih =>
    have hle : ofBytes bs ≤ ofBytes as := ofBytes_le_of_forall₂ _ _ htail
    simp only [List.zipWith_cons_cons, ofBytes_cons, ← ih]
    omega

/-! ### Bitwise operations act lane-wise -/

theorem testBit_byte (a x i : Nat) (ha : a < 256) :
    (a + 256 * x).testBit i = if i < 8 then a.testBit i else x.testBit (i - 8) := by
  rcases Nat.lt_or_ge i 8 with h | h
  · rw [if_pos h]
    rw [Nat.testBit_to_div_mod, Nat.testBit_to_div_mod]
    have e1 : a + 256 * x = a + 2 ^ i * (2 ^ (8 - i) * x) := by
      rw [← Nat.mul_assoc, ← pow_add, show i + (8 - i) = 8 by omega]
      norm_num
    rw [e1, Nat.add_mul_div_left _ _ (Nat.pos_pow_of_pos i (by norm_num))]
    have e2 : 2 ^ (8 - i) * x = 2 * (2 ^ (8 - i - 1) * x) := by
      rw [← Nat.mul_assoc, ← pow_succ']
      congr 2
      omega
    rw [e2, Nat.add_mul_mod_self_left]
  · rw [if_neg (by omega)]
    rw [Nat.testBit_to_div_mod, Nat.testBit_to_div_mod]
    have e1 : (2 : Nat) ^ i = 2 ^ 8 * 2 ^ (i - 8) := by
      rw [← pow_add]
      congr 1
      omega
    rw [e1, ← Nat.div_div_eq_div_mul]
    have e2 : (a + 256 * x) / 2 ^ 8 = x := by
      have : (a + 256 * x) / 256 = a / 256 + x := Nat.add_mul_div_left a x (by norm_num)
      simpa [Nat.div_eq_of_lt ha] using this
    rw [e2]

theorem land_byte (a b x y : Nat) (ha : a < 256) (hb : b < 256) :
    (a + 256 * x) &&& (b + 256 * y) = (a &&& b) + 256 * (x &&& y) := by
  have hab : a &&& b < 256 := Nat.lt_of_le_of_lt Nat.and_le_left ha
  apply Nat.eq_of_testBit_eq
  intro i
  rw [Nat.testBit_land, testBit_byte _ _ _ ha, testBit_byte _ _ _ hb,
    testBit_byte _ _ _ hab]
  rcases Nat.lt_or_ge i 8 with h | h
  · simp [h, Nat.testBit_land]
  · simp [Nat.not_lt.mpr h, Nat.lt_irrefl, Nat.testBit_land, if_neg (Nat.not_lt.mpr h)]

theorem lor_byte (a b x y : Nat) (ha : a < 256) (hb : b < 256) :
    (a + 256 * x) ||| (b + 256 * y) = (a ||| b) + 256 * (x ||| y) := by
  have hab : a ||| b < 256 := by
    have : a ||| b < 2 ^ 8 := Nat.or_lt_two_pow (by simpa using ha) (by simpa using hb)
    simpa using this
  apply Nat.eq_of_testBit_eq
  intro i
  rw [Nat.testBit_lor, testBit_byte _ _ _ ha, testBit_byte _ _ _ hb,
    testBit_byte _ _ _ hab]
  rcases Nat.lt_or_ge i 8 with h | h
  · simp [h, Nat.testBit_lor]
  · simp [Nat.not_lt.mpr h, Nat.testBit_lor, if_neg (Nat.not_lt.mpr h)]

theorem lxor_byte (a b x y : Nat) (ha : a < 256) (hb : b < 256) :
    (a + 256 * x) ^^^ (b + 256 * y) = (a ^^^ b) + 256 * (x ^^^ y) := by
  have hab : a ^^^ b < 256 := by
    have : a ^^^ b < 2 ^ 8 := Nat.xor_lt_two_pow (by simpa using ha) (by simpa using hb)
    simpa using this
  apply Nat.eq_of_testBit_eq
  intro i
  rw [Nat.testBit_xor, testBit_byte _ _ _ ha, testBit_byte _ _ _ hb,
    testBit_byte _ _ _ hab]
  rcases Nat.lt_or_ge i 8 with h | h
  · simp [h, Nat.testBit_xor]
  · simp [Nat.not_lt.mpr h, Nat.testBit_xor, if_neg (Nat.not_lt.mpr h)]

theorem ofBytes_land (xs ys : List Nat) (h : xs.length = ys.length)
    (hx : ∀ b ∈ xs, b < 256) (hy : ∀ b ∈ ys, b < 256) :
    ofBytes xs &&& ofBytes ys = ofBytes (List.zipWith (· &&& ·) xs ys) := by
  induction xs generalizing ys with
  | nil =>
    cases ys with
    | nil => simp [ofBytes]
    | cons b bs => simp at h
  | cons a as ih =>
    cases ys with
    | nil => simp at h
    | cons b bs =>
      simp only [List.length_cons, Nat.succ_inj] at h
      simp only [List.zipWith_cons_cons, ofBytes_cons]
      rw [land_byte _ _ _ _ (hx a (by simp)) (hy b (by simp))]
      rw [ih bs h (fun c hc => hx c (by simp [hc])) (fun c hc => hy c (by simp [hc]))]

theorem ofBytes_lor (xs ys : List Nat) (h : xs.length = ys.length)
    (hx : ∀ b ∈ xs, b < 256) (hy : ∀ b ∈ ys, b < 256) :
    ofBytes xs ||| ofBytes ys = ofBytes (List.zipWith (· ||| ·) xs ys) := by
  induction xs generalizing ys with
  | nil =>
    cases ys with
    | nil => simp [ofBytes]
    | cons b bs => simp at h
  | cons a as ih =>
    cases ys with
    | nil => simp at h
    | cons b bs =>
      simp only [List.length_cons, Nat.succ_inj] at h
      simp only [List.zipWith_cons_cons, ofBytes_cons]
      rw [lor_byte _ _ _ _ (hx a (by simp)) (hy b (by simp))]
      rw [ih bs h (fun c hc => hx c (by simp [hc])) (fun c hc => hy c (by simp [hc]))]

theorem ofBytes_lxor (xs ys : List Nat) (h : xs.length = ys.length)
    (hx : ∀ b ∈ xs, b < 256) (hy : ∀ b ∈ ys, b < 256) :
    ofBytes xs ^^^ ofBytes ys = ofBytes (List.zipWith (· ^^^ ·) xs ys) := by
  induction xs generalizing ys with
  | nil =>
    cases ys with
    | nil => simp [ofBytes]
    | cons b bs => simp at h
  | cons a as ih =>
    cases ys with
    | nil => simp at h
    | cons b bs =>
      simp only [List.length_cons, Nat.succ_inj] at h
      simp only [List.zipWith_cons_cons, ofBytes_cons]
      rw [lxor_byte _ _ _ _ (hx a (by simp)) (hy b (by simp))]
      rw [ih bs h (fun c hc => hx c (by simp [hc])) (fun c hc => hy c (by simp [hc]))]

theorem four_dvd_ofBytes (l : List Nat) (h : ∀ b ∈ l, b % 4 = 0) :
    4 ∣ ofBytes l := by
  induction l with
  | nil => simp [ofBytes]
  | cons a as ih =>
    have ha : a % 4 = 0 := h a (by simp)
    have has : 4 ∣ ofBytes as := ih (fun b hb => h b (by simp [hb]))
    simp only [ofBytes_cons]
    omega

theorem ofBytes_shiftRight_two (l : List Nat) (h : ∀ b ∈ l, b % 4 = 0) :
    ofBytes l >>> 2 = ofBytes (l.map (· / 4)) := by
  induction l with
  | nil => rfl
  | cons a as ih =>
    have ha : a % 4 = 0 := h a (by simp)
    have has : 4 ∣ ofBytes as := four_dvd_ofBytes as (fun b hb => h b (by simp [hb]))
    have ih2 := ih (fun b hb => h b (by simp [hb]))
    rw [Nat.shiftRight_eq_div_pow] at ih2 ⊢
    simp only [List.map_cons, ofBytes_cons, ← ih2]
    omega

theorem ofBytes_shiftRight_append (xs ys : List Nat) (hx : ∀ b ∈ xs, b < 256) :
    ofBytes (xs ++ ys) >>> (8 * xs.length) = ofBytes ys := by
  rw [ofBytes_append, Nat.shiftRight_eq_div_pow]
  have e : (2 : Nat) ^ (8 * xs.length) = 256 ^ xs.length := by
    rw [pow_mul]; norm_num
  rw [e, Nat.add_mul_div_left _ _ (Nat.pos_pow_of_pos _ (by norm_num)),
    Nat.div_eq_of_lt (ofBytes_lt xs hx)]
  omega

theorem getByte_ofBytes (l : List Nat) (h : ∀ b ∈ l, b < 256) (i : Nat) :
    getByte (ofBytes l) i = l.getD i 0 := by
  induction l generalizing i with
  | nil => simp [ofBytes, getByte]
  | cons a as ih =>
    cases i with
    | zero =>
      simp only [getByte, pow_zero, Nat.div_one, ofBytes_cons, List.getD_cons_zero]
      rw [Nat.add_mul_mod_self_left, Nat.mod_eq_of_lt (h a (by simp))]
    | succ i =>
      have ih2 := ih (fun b hb => h b (by simp [hb])) i
      simp only [getByte, ofBytes_cons, List.getD_cons_succ] at ih2 ⊢
      rw [pow_succ', ← Nat.div_div_eq_div_mul]
      have e : (a + 256 * ofBytes as) / 256 = ofBytes as := by
        have := Nat.add_mul_div_left a (ofBytes as) (show 0 < 256 by norm_num)
        simpa [Nat.div_eq_of_lt (h a (by simp))] using this
      rw [e]
      exact ih2

theorem toBytes_ofBytes (n : Nat) (l : List Nat) (hl : l.length = n)
    (h : ∀ b ∈ l, b < 256) : toBytes n (ofBytes l) = l := by
  apply List.ext_getElem
  · simp [toBytes, hl]
  · intro i h1 h2
    simp only [toBytes, List.getElem_map, List.getElem_range]
    rw [getByte_ofBytes l h i]
    exact List.getD_eq_getElem l 0 h2

/-! ### zipWith and replicate helpers -/

theorem zipWith_rep_right (f : Nat → Nat → Nat) (l : List Nat) (n : Nat) (c : Nat)
    (h : l.length ≤ n) :
    List.zipWith f l (List.replicate n c) = l.map (fun a => f a c) := by
  induction l generalizing n with
  | nil => simp
  | cons a as ih =>
    cases n with
    | zero => simp at h
    | succ n =>
      simp only [List.replicate_succ, List.zipWith_cons_cons, List.map_cons]
      rw [ih n (by simpa using h)]

theorem zipWith_rep_left (f : Nat → Nat → Nat) (l : List Nat) (n : Nat) (c : Nat)
    (h : l.length ≤ n) :
    List.zipWith f (List.replicate n c) l = l.map (fun a => f c a) := by
  induction l generalizing n with
  | nil => simp
  | cons a as ih =>
    cases n with
    | zero => simp at h
    | succ n =>
      simp only [List.replicate_succ, List.zipWith_cons_cons, List.map_cons]
      rw [ih n (by simpa using h)]

theorem zipWith_self (f : Nat → Nat → Nat) (l : List Nat) :
    List.zipWith f l l = l.map (fun a => f a a) := by
  induction l with
  | nil => rfl
  | cons a as ih => simp [List.zipWith_cons_cons, ih]

/-! ## The source embedding

`src/tinystr.rs` defines a macro-generated family `TinyStr4`/`TinyStr8`/
`TinyStr16` over `u32`/`u64`/`u128`.  The embedding is parameterized by the
capacity `n` in bytes (4, 8 or 16); `M n = 2 ^ (8*n)` is the modulus of the
`n`-byte machine word. -/

/-- Error enum of the crate root (`crate::Error`), variants as used by
`from_str` and the test suite. -/
inductive Error
  | InvalidSize
  | InvalidNull
  | NonAscii
deriving DecidableEq

/-- Modulus of the `n`-byte machine word (`u32`/`u64`/`u128`). -/
def M (n : Nat) : Nat := 2 ^ (8 * n)

/-- Full-width bitwise complement `!x` of an `n`-byte word. -/
def wnot (n x : Nat) : Nat := (M n - 1) ^^^ x

/-- The width-generic mask generator (`GenMask::genmask`): byte value `b`
replicated across every byte lane of the `n`-byte word. -/
def genmask (n b : Nat) : Nat := ofBytes (List.replicate n b)

/-- `impl GenMask for u32` exactly as in the source:
`mask<<24 | mask<<16 | mask<<8 | mask`. -/
def genmask32 (b : Nat) : Nat := b <<< 24 ||| b <<< 16 ||| b <<< 8 ||| b

/-- `impl GenMask for u64`: the 32-bit mask stacked twice. -/
def genmask64 (b : Nat) : Nat := genmask32 b <<< 32 ||| genmask32 b

/-- `impl GenMask for u128`: the 64-bit mask stacked twice. -/
def genmask128 (b : Nat) : Nat := genmask64 b <<< 64 ||| genmask64 b

/-- `to_ascii_uppercase`:
`word & !(((word + gm(0x1f)) & !(word + gm(0x05)) & gm(0x80)) >> 2)`,
with the additions wrapping at the word width. -/
def to_ascii_uppercase (n w : Nat) : Nat :=
  w &&& wnot n ((((w + genmask n 0x1f) % M n) &&& wnot n ((w + genmask n 0x05) % M n)
    &&& genmask n 0x80) >>> 2)

/-- `to_ascii_lowercase`:
`word | (((word + gm(0x3f)) & !(word + gm(0x25)) & gm(0x80)) >> 2)`. -/
def to_ascii_lowercase (n w : Nat) : Nat :=
  w ||| ((((w + genmask n 0x3f) % M n) &&& wnot n ((w + genmask n 0x25) % M n)
    &&& genmask n 0x80) >>> 2)

/-- `to_ascii_titlecase`: masks `gm(0x3f) & !0x20` and `gm(0x25) & !0x20`
(the lane-0 offsets 0x1f/0x05 detect a lowercase first letter, the other
lanes detect uppercase letters), then
`mask = ((word + MASK_1F) & !(word + MASK_05) & MASK_80) >> 2` and
`result = (word | mask) & !(0x20 & mask)`.  `to_le`/`from_le` are the
identity on the little-endian host. -/
def to_ascii_titlecase (n w : Nat) : Nat :=
  let mask1f := genmask n 0x3f &&& wnot n 0x20
  let mask05 := genmask n 0x25 &&& wnot n 0x20
  let mask := (((w + mask1f) % M n) &&& wnot n ((w + mask05) % M n)
    &&& genmask n 0x80) >>> 2
  (w ||| mask) &&& wnot n (0x20 &&& mask)

/-- `is_ascii_alphanumeric`:
`mask = (word + gm(0x7f)) & gm(0x80); lower = word | gm(0x20);`
`((!(lower + gm(0x1f)) | (lower + gm(0x05))) & mask) == 0`. -/
def is_ascii_alphanumeric (n w : Nat) : Bool :=
  let mask := ((w + genmask n 0x7f) % M n) &&& genmask n 0x80
  let lower := w ||| genmask n 0x20
  ((wnot n ((lower + genmask n 0x1f) % M n) ||| ((lower + genmask n 0x05) % M n))
    &&& mask) == 0

/-- Generic `FromStr::from_str` (the `impl_from_str!` macro used by
`TinyStr8` and `TinyStr16`, and - see `tinyStr4_from_str_eq_from_str` - the
formula the `TinyStr4` dispatch implements by hand): size check, copy of
the bytes into a zero-initialized word,
`mask = gm(0x80) >> (8 * (size - len))`, high-bit check (`NonAscii`) and
borrowing zero-byte check (`InvalidNull`).  `mask - word` is `u32`/`u64`/
`u128` wrapping subtraction, modelled as `(M n + mask - word) % M n`. -/
def from_str (n : Nat) (s : List Nat) : Except Error Nat :=
  let len := s.length
  if len < 1 ∨ n < len then .error .InvalidSize
  else
    let word := ofBytes (s ++ List.replicate (n - len) 0)
    let mask := genmask n 0x80 >>> (8 * (n - len))
    if word &&& mask ≠ 0 then .error .NonAscii
    else if (M n + mask - word) % M n &&& mask ≠ 0 then .error .InvalidNull
    else .ok word

/-- `make_4byte_str(text, len, mask)`: copies `len` bytes of `text` into a
zero-initialized `u32` and runs the same two mask checks as the generic
encoder with a hard-coded mask. -/
def make_4byte_str (s : List Nat) (len mask : Nat) : Except Error Nat :=
  let word := ofBytes (s.take len ++ List.replicate (4 - len) 0)
  if word &&& mask ≠ 0 then .error .NonAscii
  else if (M 4 + mask - word) % M 4 &&& mask ≠ 0 then .error .InvalidNull
  else .ok word

/-- `impl FromStr for TinyStr4`: dispatch on the byte length with
hard-coded little-endian occupied-byte masks. -/
def tinyStr4_from_str (s : List Nat) : Except Error Nat :=
  match s.length with
  | 1 => make_4byte_str s 1 0x80
  | 2 => make_4byte_str s 2 0x8080
  | 3 => make_4byte_str s 3 0x00808080
  | 4 => make_4byte_str s 4 0x80808080
  | _ => .error .InvalidSize

/-- The string length recovered in `Deref::deref`:
`size - word.leading_zeros() / 8`, with `leading_zeros = 8*n - bitlength`. -/
def strLen (n w : Nat) : Nat := n - (8 * n - Nat.size w) / 8

/-- `Deref::deref`: the first `strLen` byte lanes of the word, i.e. the
decoded byte string. -/
def deref (n w : Nat) : List Nat := (List.range (strLen n w)).map (getByte w)

/-- `Ord::cmp` compares `to_be()` values; on the little-endian host
`to_be` is byte reversal of the word. -/
def to_be (n w : Nat) : Nat := ofBytes ((toBytes n w).reverse)

/-- `Ord::cmp`: `self.0.get().to_be().cmp(&other.0.get().to_be())`. -/
def cmp (n a b : Nat) : Ordering := compare (to_be n a) (to_be n b)

/-- `new_unchecked(text)` wraps `from_le(text)` without validation;
`from_le` is the identity on the little-endian host. -/
def new_unchecked (text : Nat) : Nat := text

/-- `impl From<$ty> for $ut`: `val.0.get().to_le()`, the raw integer of a
packed value; `to_le` is the identity on the little-endian host. -/
def raw_value (w : Nat) : Nat := w

/-- The three data-model invariants of a live packed value: it is the
little-endian packing of a byte string of length 1..n whose bytes are
non-zero ASCII (1..0x7F), padded with zero bytes. -/
def ValidWord (n w : Nat) : Prop :=
  ∃ s : List Nat, 1 ≤ s.length ∧ s.length ≤ n ∧ (∀ b ∈ s, 1 ≤ b ∧ b ≤ 0x7f) ∧
    w = ofBytes (s ++ List.replicate (n - s.length) 0)

/-! ## Specification-side definitions (from the spec text, for comparison) -/

/-- Case-raise one character: a lowercase letter loses its 0x20 bit,
everything else is unchanged. -/
def raiseChar (b : Nat) : Nat := if 0x61 ≤ b ∧ b ≤ 0x7a then b - 0x20 else b

/-- Lowercase one character: an uppercase letter gains the 0x20 bit,
everything else is unchanged. -/
def lowerChar (b : Nat) : Nat := if 0x41 ≤ b ∧ b ≤ 0x5a then b + 0x20 else b

/-- The titlecase transformation described by the spec: first character
case-raised if a lowercase letter, all remaining characters lowercased. -/
def titlecaseSpec : List Nat → List Nat
  | [] => []
  | c :: cs => raiseChar c :: cs.map lowerChar

/-- Byte-wise lexicographic comparison of two byte strings. -/
def lexCompare : List Nat → List Nat → Ordering
  | [], [] => .eq
  | [], _ :: _ => .lt
  | _ :: _, [] => .gt
  | a :: as, b :: bs =>
    match compare a b with
    | .eq => lexCompare as bs
    | o => o

/-! ## Reduction of the word-level formulas to per-lane maps -/

theorem M_eq_pow (n : Nat) : M n = 256 ^ n := by
  rw [M, pow_mul]
  norm_num

theorem ofBytes_rep255 (n : Nat) : ofBytes (List.replicate n 255) = 256 ^ n - 1 := by
  induction n with
  | zero => rfl
  | succ k ih =>
    rw [List.replicate_succ, ofBytes_cons, ih, pow_succ]
    have h1 : 1 ≤ 256 ^ k := Nat.one_le_pow k 256 (by norm_num)
    omega

theorem wnot_ofBytes (n : Nat) (p : List Nat) (hn : p.length = n)
    (hp : ∀ b ∈ p, b < 256) :
    wnot n (ofBytes p) = ofBytes (p.map (fun b => 255 ^^^ b)) := by
  rw [wnot, M_eq_pow, ← ofBytes_rep255]
  rw [ofBytes_lxor _ _ (by simp [hn])
    (by intro b hb; obtain rfl := List.eq_of_mem_replicate hb; norm_num) hp]
  rw [zipWith_rep_left _ _ _ _ (le_of_eq hn)]

theorem xor255_lt (b : Nat) (hb : b < 256) : 255 ^^^ b < 256 := by
  have h : (255 : Nat) ^^^ b < 2 ^ 8 := Nat.xor_lt_two_pow (by norm_num) (by simpa using hb)
  simpa using h

theorem and128_mod_four (x : Nat) : x &&& 0x80 % 4 = 0 ∧ (x &&& 0x80) % 4 = 0 := by
  constructor
  · norm_num
  · rw [show (0x80 : Nat) = 2 ^ 7 by norm_num, Nat.and_two_pow]
    cases x.testBit 7 <;> simp

theorem map_land_map (p : List Nat) (f g : Nat → Nat)
    (hf : ∀ b ∈ p, f b < 256) (hg : ∀ b ∈ p, g b < 256) :
    ofBytes (p.map f) &&& ofBytes (p.map g) = ofBytes (p.map (fun b => f b &&& g b)) := by
  rw [ofBytes_land _ _ (by simp)
    (by intro b hb; obtain ⟨a, ha, rfl⟩ := List.mem_map.mp hb; exact hf a ha)
    (by intro b hb; obtain ⟨a, ha, rfl⟩ := List.mem_map.mp hb; exact hg a ha)]
  rw [List.zipWith_map, zipWith_self]

theorem map_lor_map (p : List Nat) (f g : Nat → Nat)
    (hf : ∀ b ∈ p, f b < 256) (hg : ∀ b ∈ p, g b < 256) :
    ofBytes (p.map f) ||| ofBytes (p.map g) = ofBytes (p.map (fun b => f b ||| g b)) := by
  rw [ofBytes_lor _ _ (by simp)
    (by intro b hb; obtain ⟨a, ha, rfl⟩ := List.mem_map.mp hb; exact hf a ha)
    (by intro b hb; obtain ⟨a, ha, rfl⟩ := List.mem_map.mp hb; exact hg a ha)]
  rw [List.zipWith_map, zipWith_self]

theorem addc_map (n c : Nat) (p : List Nat) (f : Nat → Nat) (hn : p.length = n)
    (hb : ∀ b ∈ p, f b + c < 256) :
    (ofBytes (p.map f) + genmask n c) % M n = ofBytes (p.map (fun b => f b + c)) := by
  rw [genmask, ofBytes_add _ _ (by simp [hn]), zipWith_rep_right _ _ _ _ (by simp [hn])]
  rw [List.map_map]
  apply Nat.mod_eq_of_lt
  rw [M_eq_pow]
  have h2 := ofBytes_lt (p.map (fun b => f b + c))
    (by intro b hb2; obtain ⟨a, ha, rfl⟩ := List.mem_map.mp hb2; exact hb a ha)
  simp only [List.length_map, hn] at h2
  have e : (fun a => a + c) ∘ f = fun b => f b + c := rfl
  rw [e]
  exact h2

theorem andc_map (n c : Nat) (p : List Nat) (f : Nat → Nat) (hn : p.length = n)
    (hf : ∀ b ∈ p, f b < 256) (hc : c < 256) :
    ofBytes (p.map f) &&& genmask n c = ofBytes (p.map (fun b => f b &&& c)) := by
  rw [genmask, ofBytes_land _ _ (by simp [hn])
    (by intro b hb; obtain ⟨a, ha, rfl⟩ := List.mem_map.mp hb; exact hf a ha)
    (by intro b hb; obtain rfl := List.eq_of_mem_replicate hb; exact hc)]
  rw [zipWith_rep_right _ _ _ _ (by simp [hn]), List.map_map]
  rfl

theorem wnot_map (n : Nat) (p : List Nat) (f : Nat → Nat) (hn : p.length = n)
    (hf : ∀ b ∈ p, f b < 256) :
    wnot n (ofBytes (p.map f)) = ofBytes (p.map (fun b => 255 ^^^ f b)) := by
  rw [wnot_ofBytes n _ (by simp [hn])
    (by intro b hb; obtain ⟨a, ha, rfl⟩ := List.mem_map.mp hb; exact hf a ha)]
  rw [List.map_map]
  rfl

theorem shr2_map (p : List Nat) (f : Nat → Nat)
    (hf : ∀ b ∈ p, f b % 4 = 0) :
    ofBytes (p.map f) >>> 2 = ofBytes (p.map (fun b => f b / 4)) := by
  rw [ofBytes_shiftRight_two _
    (by intro b hb; obtain ⟨a, ha, rfl⟩ := List.mem_map.mp hb; exact hf a ha)]
  rw [List.map_map]
  rfl

theorem map_id_eq (p : List Nat) : p.map (fun b => b) = p := List.map_id' p

theorem upperByte_eq : ∀ b : Nat, b < 128 →
    b &&& (255 ^^^ ((b + 0x1f) &&& (255 ^^^ (b + 0x05)) &&& 0x80) / 4) = raiseChar b := by
  decide

theorem lowerByte_eq : ∀ b : Nat, b < 128 →
    b ||| ((b + 0x3f) &&& (255 ^^^ (b + 0x25)) &&& 0x80) / 4 = lowerChar b := by
  decide

/-- The uppercase formula acts on each lane as the per-byte function below. -/
theorem upper_map (n : Nat) (p : List Nat) (hn : p.length = n) (hp : ∀ b ∈ p, b ≤ 0x7f) :
    to_ascii_uppercase n (ofBytes p) = ofBytes (p.map raiseChar) := by
  have hid : ofBytes p = ofBytes (p.map (fun b => b)) := by rw [map_id_eq]
  rw [to_ascii_uppercase, hid]
  rw [addc_map n 0x1f p _ hn (by intro b hb; have := hp b hb; omega)]
  rw [addc_map n 0x05 p _ hn (by intro b hb; have := hp b hb; omega)]
  rw [wnot_map n p _ hn (by intro b hb; have := hp b hb; omega)]
  rw [map_land_map p _ _ (by intro b hb; have := hp b hb; omega)
    (by intro b hb; exact xor255_lt _ (by have := hp b hb; omega))]
  rw [andc_map n 0x80 p _ hn
    (by intro b hb; exact Nat.lt_of_le_of_lt Nat.and_le_left (by have := hp b hb; omega))
    (by norm_num)]
  rw [shr2_map p _ (by intro b hb; exact (and128_mod_four _).2)]
  rw [wnot_map n p _ hn
    (by intro b hb
        have h1 : ((b + 0x1f) &&& (255 ^^^ (b + 0x05)) &&& 0x80) / 4 ≤ 0x80 / 4 :=
          Nat.div_le_div_right Nat.and_le_right
        omega)]
  rw [map_land_map p _ _ (by intro b hb; have := hp b hb; omega)
    (by intro b hb
        exact xor255_lt _ (by
          have h1 : ((b + 0x1f) &&& (255 ^^^ (b + 0x05)) &&& 0x80) / 4 ≤ 0x80 / 4 :=
            Nat.div_le_div_right Nat.and_le_right
          omega))]
  congr 1
  apply List.map_congr_left
  intro b hb
  exact upperByte_eq b (by have := hp b hb; omega)

/-- The lowercase formula acts on each lane as `lowerChar`. -/
theorem lower_map (n : Nat) (p : List Nat) (hn : p.length = n) (hp : ∀ b ∈ p, b ≤ 0x7f) :
    to_ascii_lowercase n (ofBytes p) = ofBytes (p.map lowerChar) := by
  have hid : ofBytes p = ofBytes (p.map (fun b => b)) := by rw [map_id_eq]
  rw [to_ascii_lowercase, hid]
  rw [addc_map n 0x3f p _ hn (by intro b hb; have := hp b hb; omega)]
  rw [addc_map n 0x25 p _ hn (by intro b hb; have := hp b hb; omega)]
  rw [wnot_map n p _ hn (by intro b hb; have := hp b hb; omega)]
  rw [map_land_map p _ _ (by intro b hb; have := hp b hb; omega)
    (by intro b hb; exact xor255_lt _ (by have := hp b hb; omega))]
  rw [andc_map n 0x80 p _ hn
    (by intro b hb; exact Nat.lt_of_le_of_lt Nat.and_le_left (by have := hp b hb; omega))
    (by norm_num)]
  rw [shr2_map p _ (by intro b hb; exact (and128_mod_four _).2)]
  rw [map_lor_map p _ _ (by intro b hb; have := hp b hb; omega)
    (by intro b hb
        have h1 : ((b + 0x3f) &&& (255 ^^^ (b + 0x25)) &&& 0x80) / 4 ≤ 0x80 / 4 :=
          Nat.div_le_div_right Nat.and_le_right
        omega)]
  congr 1
  apply List.map_congr_left
  intro b hb
  exact lowerByte_eq b (by have := hp b hb; omega)

theorem and_lt_256 (x y : Nat) (hx : x < 256) : x &&& y < 256 :=
  Nat.lt_of_le_of_lt Nat.and_le_left hx

theorem or_lt_256 (x y : Nat) (hx : x < 256) (hy : y < 256) : x ||| y < 256 := by
  have h : x ||| y < 2 ^ 8 := Nat.or_lt_two_pow (by simpa using hx) (by simpa using hy)
  simpa using h

theorem toggle_le_32 (x : Nat) : (x &&& 0x80) / 4 ≤ 32 := by
  have h1 : x &&& 0x80 ≤ 0x80 := Nat.and_le_right
  have h2 : (x &&& 0x80) / 4 ≤ 0x80 / 4 := Nat.div_le_div_right h1
  omega

/-- The lane-0-adjusted titlecase mask `gm(0x3f) & !0x20` as a lane list. -/
theorem mask1f_list (k : Nat) :
    genmask (k + 1) 0x3f &&& wnot (k + 1) 0x20 = ofBytes (0x1f :: List.replicate k 0x3f) := by
  have h32 : (0x20 : Nat) = ofBytes (0x20 :: List.replicate k 0) := by
    simp [ofBytes_cons, ofBytes_replicate_zero]
  rw [h32, wnot_ofBytes (k + 1) _ (by simp)
    (by intro b hb
        rcases List.mem_cons.mp hb with rfl | hb
        · decide
        · obtain rfl := List.eq_of_mem_replicate hb; decide)]
  rw [List.map_cons, List.map_replicate]
  rw [genmask, List.replicate_succ]
  rw [ofBytes_land _ _ (by simp)
    (by intro b hb
        rcases List.mem_cons.mp hb with rfl | hb
        · decide
        · obtain rfl := List.eq_of_mem_replicate hb; decide)
    (by intro b hb
        rcases List.mem_cons.mp hb with rfl | hb
        · decide
        · obtain rfl := List.eq_of_mem_replicate hb; decide)]
  rw [List.zipWith_cons_cons, zipWith_rep_right _ _ _ _ (by simp), List.map_replicate]
  rw [show (0x3f &&& (255 ^^^ 0x20) : Nat) = 0x1f by decide,
    show (0x3f &&& (255 ^^^ 0) : Nat) = 0x3f by decide]

/-- The lane-0-adjusted titlecase mask `gm(0x25) & !0x20` as a lane list. -/
theorem mask05_list (k : Nat) :
    genmask (k + 1) 0x25 &&& wnot (k + 1) 0x20 = ofBytes (0x05 :: List.replicate k 0x25) := by
  have h32 : (0x20 : Nat) = ofBytes (0x20 :: List.replicate k 0) := by
    simp [ofBytes_cons, ofBytes_replicate_zero]
  rw [h32, wnot_ofBytes (k + 1) _ (by simp)
    (by intro b hb
        rcases List.mem_cons.mp hb with rfl | hb
        · decide
        · obtain rfl := List.eq_of_mem_replicate hb; decide)]
  rw [List.map_cons, List.map_replicate]
  rw [genmask, List.replicate_succ]
  rw [ofBytes_land _ _ (by simp)
    (by intro b hb
        rcases List.mem_cons.mp hb with rfl | hb
        · decide
        · obtain rfl := List.eq_of_mem_replicate hb; decide)
    (by intro b hb
        rcases List.mem_cons.mp hb with rfl | hb
        · decide
        · obtain rfl := List.eq_of_mem_replicate hb; decide)]
  rw [List.zipWith_cons_cons, zipWith_rep_right _ _ _ _ (by simp), List.map_replicate]
  rw [show (0x25 &&& (255 ^^^ 0x20) : Nat) = 0x05 by decide,
    show (0x25 &&& (255 ^^^ 0) : Nat) = 0x25 by decide]

theorem titleHeadByte_eq : ∀ a : Nat, a < 128 →
    (a ||| ((a + 0x1f) &&& (255 ^^^ (a + 0x05)) &&& 0x80) / 4) &&&
      (255 ^^^ (0x20 &&& (((a + 0x1f) &&& (255 ^^^ (a + 0x05)) &&& 0x80) / 4))) =
      raiseChar a := by
  decide

theorem titleTailByte_eq : ∀ b : Nat, b < 128 →
    (b ||| ((b + 0x3f) &&& (255 ^^^ (b + 0x25)) &&& 0x80) / 4) &&&
      (255 ^^^ (0 &&& (((b + 0x3f) &&& (255 ^^^ (b + 0x25)) &&& 0x80) / 4))) =
      lowerChar b := by
  decide

/-- The titlecase formula case-raises lane 0 and lowercases every other
lane. -/
theorem title_map (a : Nat) (as : List Nat) (hp : ∀ b ∈ a :: as, b ≤ 0x7f) :
    to_ascii_titlecase (as.length + 1) (ofBytes (a :: as)) =
      ofBytes (raiseChar a :: as.map lowerChar) := by
  have ha : a ≤ 0x7f := hp a (by simp)
  have has : ∀ b ∈ as, b ≤ 0x7f := fun b hb => hp b (by simp [hb])
  have hword : ∀ b ∈ a :: as, b < 256 := by
    intro b hb
    have := hp b hb
    omega
  have e1 : (ofBytes (a :: as) + (genmask (as.length + 1) 0x3f &&& wnot (as.length + 1) 0x20))
      % M (as.length + 1) = ofBytes ((a + 0x1f) :: as.map (fun b => b + 0x3f)) := by
    rw [mask1f_list]
    rw [ofBytes_add _ _ (by simp), List.zipWith_cons_cons,
      zipWith_rep_right _ _ _ _ (Nat.le_refl _)]
    apply Nat.mod_eq_of_lt
    rw [M_eq_pow]
    have h := ofBytes_lt ((a + 0x1f) :: as.map (fun b => b + 0x3f))
      (by intro b hb
          rcases List.mem_cons.mp hb with rfl | hb
          · omega
          · obtain ⟨c, hc, rfl⟩ := List.mem_map.mp hb
            show c + 0x3f < 256
            have := has c hc
            omega)
    simpa using h
  have e2 : (ofBytes (a :: as) + (genmask (as.length + 1) 0x25 &&& wnot (as.length + 1) 0x20))
      % M (as.length + 1) = ofBytes ((a + 0x05) :: as.map (fun b => b + 0x25)) := by
    rw [mask05_list]
    rw [ofBytes_add _ _ (by simp), List.zipWith_cons_cons,
      zipWith_rep_right _ _ _ _ (Nat.le_refl _)]
    apply Nat.mod_eq_of_lt
    rw [M_eq_pow]
    have h := ofBytes_lt ((a + 0x05) :: as.map (fun b => b + 0x25))
      (by intro b hb
          rcases List.mem_cons.mp hb with rfl | hb
          · omega
          · obtain ⟨c, hc, rfl⟩ := List.mem_map.mp hb
            show c + 0x25 < 256
            have := has c hc
            omega)
    simpa using h
  have e3 : wnot (as.length + 1) (ofBytes ((a + 0x05) :: as.map (fun b => b + 0x25))) =
      ofBytes ((255 ^^^ (a + 0x05)) :: as.map (fun b => 255 ^^^ (b + 0x25))) := by
    rw [wnot_ofBytes _ _ (by simp)
      (by intro b hb
          rcases List.mem_cons.mp hb with rfl | hb
          · omega
          · obtain ⟨c, hc, rfl⟩ := List.mem_map.mp hb
            show c + 0x25 < 256
            have := has c hc
            omega)]
    rw [List.map_cons, List.map_map]
    rfl
  have e4 : ofBytes ((a + 0x1f) :: as.map (fun b => b + 0x3f)) &&&
      ofBytes ((255 ^^^ (a + 0x05)) :: as.map (fun b => 255 ^^^ (b + 0x25))) =
      ofBytes (((a + 0x1f) &&& (255 ^^^ (a + 0x05))) ::
        as.map (fun b => (b + 0x3f) &&& (255 ^^^ (b + 0x25)))) := by
    rw [ofBytes_land _ _ (by simp)
      (by intro b hb
          rcases List.mem_cons.mp hb with rfl | hb
          · omega
          · obtain ⟨c, hc, rfl⟩ := List.mem_map.mp hb
            show c + 0x3f < 256
            have := has c hc
            omega)
      (by intro b hb
          rcases List.mem_cons.mp hb with rfl | hb
          · exact xor255_lt _ (by omega)
          · obtain ⟨c, hc, rfl⟩ := List.mem_map.mp hb
            show 255 ^^^ (c + 0x25) < 256
            exact xor255_lt _ (by have := has c hc; omega))]
    rw [List.zipWith_cons_cons, List.zipWith_map, zipWith_self]
  have e5 : genmask (as.length + 1) 0x80 = ofBytes (0x80 :: List.replicate as.length 0x80) := by
    rw [genmask, List.replicate_succ]
  have e6 : ofBytes (((a + 0x1f) &&& (255 ^^^ (a + 0x05))) ::
        as.map (fun b => (b + 0x3f) &&& (255 ^^^ (b + 0x25)))) &&&
      ofBytes (0x80 :: List.replicate as.length 0x80) =
      ofBytes (((a + 0x1f) &&& (255 ^^^ (a + 0x05)) &&& 0x80) ::
        as.map (fun b => (b + 0x3f) &&& (255 ^^^ (b + 0x25)) &&& 0x80)) := by
    rw [ofBytes_land _ _ (by simp)
      (by intro b hb
          rcases List.mem_cons.mp hb with rfl | hb
          · exact and_lt_256 _ _ (by omega)
          · obtain ⟨c, hc, rfl⟩ := List.mem_map.mp hb
            show (c + 0x3f) &&& (255 ^^^ (c + 0x25)) < 256
            exact and_lt_256 _ _ (by have := has c hc; omega))
      (by intro b hb
          rcases List.mem_cons.mp hb with rfl | hb
          · decide
          · obtain rfl := List.eq_of_mem_replicate hb; decide)]
    rw [List.zipWith_cons_cons, zipWith_rep_right _ _ _ _ (by simp), List.map_map]
    rfl
  have e7 : ofBytes (((a + 0x1f) &&& (255 ^^^ (a + 0x05)) &&& 0x80) ::
        as.map (fun b => (b + 0x3f) &&& (255 ^^^ (b + 0x25)) &&& 0x80)) >>> 2 =
      ofBytes ((((a + 0x1f) &&& (255 ^^^ (a + 0x05)) &&& 0x80) / 4) ::
        as.map (fun b => ((b + 0x3f) &&& (255 ^^^ (b + 0x25)) &&& 0x80) / 4)) := by
    rw [ofBytes_shiftRight_two _
      (by intro b hb
          rcases List.mem_cons.mp hb with rfl | hb
          · exact (and128_mod_four _).2
          · obtain ⟨c, hc, rfl⟩ := List.mem_map.mp hb
            show ((c + 0x3f) &&& (255 ^^^ (c + 0x25)) &&& 0x80) % 4 = 0
            exact (and128_mod_four _).2)]
    rw [List.map_cons, List.map_map]
    rfl
  have e8 : ofBytes (a :: as) |||
      ofBytes ((((a + 0x1f) &&& (255 ^^^ (a + 0x05)) &&& 0x80) / 4) ::
        as.map (fun b => ((b + 0x3f) &&& (255 ^^^ (b + 0x25)) &&& 0x80) / 4)) =
      ofBytes ((a ||| ((a + 0x1f) &&& (255 ^^^ (a + 0x05)) &&& 0x80) / 4) ::
        as.map (fun b => b ||| ((b + 0x3f) &&& (255 ^^^ (b + 0x25)) &&& 0x80) / 4)) := by
    rw [ofBytes_lor _ _ (by simp) hword
      (by intro b hb
          rcases List.mem_cons.mp hb with rfl | hb
          · have := toggle_le_32 ((a + 0x1f) &&& (255 ^^^ (a + 0x05)))
            omega
          · obtain ⟨c, hc, rfl⟩ := List.mem_map.mp hb
            show ((c + 0x3f) &&& (255 ^^^ (c + 0x25)) &&& 0x80) / 4 < 256
            have := toggle_le_32 ((c + 0x3f) &&& (255 ^^^ (c + 0x25)))
            omega)]
    rw [List.zipWith_cons_cons, List.zipWith_map_right, zipWith_self]
  have e9 : ofBytes (0x20 :: List.replicate as.length 0) &&&
      ofBytes ((((a + 0x1f) &&& (255 ^^^ (a + 0x05)) &&& 0x80) / 4) ::
        as.map (fun b => ((b + 0x3f) &&& (255 ^^^ (b + 0x25)) &&& 0x80) / 4)) =
      ofBytes ((0x20 &&& (((a + 0x1f) &&& (255 ^^^ (a + 0x05)) &&& 0x80) / 4)) ::
        as.map (fun b => 0 &&& (((b + 0x3f) &&& (255 ^^^ (b + 0x25)) &&& 0x80) / 4))) := by
    rw [ofBytes_land _ _ (by simp)
      (by intro b hb
          rcases List.mem_cons.mp hb with rfl | hb
          · decide
          · obtain rfl := List.eq_of_mem_replicate hb; decide)
      (by intro b hb
          rcases List.mem_cons.mp hb with rfl | hb
          · have := toggle_le_32 ((a + 0x1f) &&& (255 ^^^ (a + 0x05)))
            omega
          · obtain ⟨c, hc, rfl⟩ := List.mem_map.mp hb
            show ((c + 0x3f) &&& (255 ^^^ (c + 0x25)) &&& 0x80) / 4 < 256
            have := toggle_le_32 ((c + 0x3f) &&& (255 ^^^ (c + 0x25)))
            omega)]
    rw [List.zipWith_cons_cons, zipWith_rep_left _ _ _ _ (by simp), List.map_map]
    rfl
  have e10 : wnot (as.length + 1)
      (ofBytes ((0x20 &&& (((a + 0x1f) &&& (255 ^^^ (a + 0x05)) &&& 0x80) / 4)) ::
        as.map (fun b => 0 &&& (((b + 0x3f) &&& (255 ^^^ (b + 0x25)) &&& 0x80) / 4)))) =
      ofBytes ((255 ^^^ (0x20 &&& (((a + 0x1f) &&& (255 ^^^ (a + 0x05)) &&& 0x80) / 4))) ::
        as.map (fun b => 255 ^^^ (0 &&& (((b + 0x3f) &&& (255 ^^^ (b + 0x25)) &&& 0x80) / 4)))) := by
    rw [wnot_ofBytes _ _ (by simp)
      (by intro b hb
          rcases List.mem_cons.mp hb with rfl | hb
          · exact and_lt_256 _ _ (by decide)
          · obtain ⟨c, hc, rfl⟩ := List.mem_map.mp hb
            show 0 &&& (((c + 0x3f) &&& (255 ^^^ (c + 0x25)) &&& 0x80) / 4) < 256
            exact and_lt_256 _ _ (by decide))]
    rw [List.map_cons, List.map_map]
    rfl
  have e11 : ofBytes ((a ||| ((a + 0x1f) &&& (255 ^^^ (a + 0x05)) &&& 0x80) / 4) ::
        as.map (fun b => b ||| ((b + 0x3f) &&& (255 ^^^ (b + 0x25)) &&& 0x80) / 4)) &&&
      ofBytes ((255 ^^^ (0x20 &&& (((a + 0x1f) &&& (255 ^^^ (a + 0x05)) &&& 0x80) / 4))) ::
        as.map (fun b => 255 ^^^ (0 &&& (((b + 0x3f) &&& (255 ^^^ (b + 0x25)) &&& 0x80) / 4)))) =
      ofBytes (((a ||| ((a + 0x1f) &&& (255 ^^^ (a + 0x05)) &&& 0x80) / 4) &&&
          (255 ^^^ (0x20 &&& (((a + 0x1f) &&& (255 ^^^ (a + 0x05)) &&& 0x80) / 4)))) ::
        as.map (fun b => (b ||| ((b + 0x3f) &&& (255 ^^^ (b + 0x25)) &&& 0x80) / 4) &&&
          (255 ^^^ (0 &&& (((b + 0x3f) &&& (255 ^^^ (b + 0x25)) &&& 0x80) / 4))))) := by
    rw [ofBytes_land _ _ (by simp)
      (by intro b hb
          rcases List.mem_cons.mp hb with rfl | hb
          · have h1 := toggle_le_32 ((a + 0x1f) &&& (255 ^^^ (a + 0x05)))
            exact or_lt_256 _ _ (by omega) (by omega)
          · obtain ⟨c, hc, rfl⟩ := List.mem_map.mp hb
            show c ||| ((c + 0x3f) &&& (255 ^^^ (c + 0x25)) &&& 0x80) / 4 < 256
            have h1 := toggle_le_32 ((c + 0x3f) &&& (255 ^^^ (c + 0x25)))
            have h2 := has c hc
            exact or_lt_256 _ _ (by omega) (by omega))
      (by intro b hb
          rcases List.mem_cons.mp hb with rfl | hb
          · exact xor255_lt _ (and_lt_256 _ _ (by decide))
          · obtain ⟨c, hc, rfl⟩ := List.mem_map.mp hb
            show 255 ^^^ (0 &&& (((c + 0x3f) &&& (255 ^^^ (c + 0x25)) &&& 0x80) / 4)) < 256
            exact xor255_lt _ (and_lt_256 _ _ (by decide)))]
    rw [List.zipWith_cons_cons, List.zipWith_map, zipWith_self]
  simp only [to_ascii_titlecase]
  rw [e1, e2, e3, e4, e5, e6, e7, e8]
  rw [show (0x20 : Nat) = ofBytes (0x20 :: List.replicate as.length 0) by
    simp [ofBytes_cons, ofBytes_replicate_zero]]
  rw [e9, e10, e11]
  rw [titleHeadByte_eq a (by omega)]
  have etail : List.map (fun b => (b ||| ((b + 0x3f) &&& (255 ^^^ (b + 0x25)) &&& 0x80) / 4) &&&
      (255 ^^^ (0 &&& (((b + 0x3f) &&& (255 ^^^ (b + 0x25)) &&& 0x80) / 4)))) as =
      List.map lowerChar as :=
    List.map_congr_left (fun b hb => titleTailByte_eq b (by have := has b hb; omega))
  rw [etail]

/-! ## Characterization of the encoder -/

/-- The occupied-byte mask: `gm(0x80)` shifted right by the unused lanes
is 0x80 in lanes `0..len-1`. -/
theorem mask_eq (n len : Nat) (h : len ≤ n) :
    genmask n 0x80 >>> (8 * (n - len)) = ofBytes (List.replicate len 0x80) := by
  rw [genmask, show n = (n - len) + len by omega, List.replicate_add]
  have e := ofBytes_shiftRight_append (List.replicate (n - len) 0x80)
    (List.replicate len 0x80)
    (by intro b hb; obtain rfl := List.eq_of_mem_replicate hb; decide)
  rw [List.length_replicate] at e
  rw [show (n - len) + len - len = n - len by omega]
  exact e

set_option maxRecDepth 2000 in
theorem byte_hi_iff : ∀ b : Nat, b < 256 → (b &&& 0x80 = 0 ↔ b ≤ 0x7f) := by decide

theorem byte_null_iff : ∀ b : Nat, b ≤ 0x7f → ((0x80 - b) &&& 0x80 = 0 ↔ 1 ≤ b) := by decide

/-- The `word & mask` check is zero exactly when every string byte is
ASCII. -/
theorem nonascii_check (n : Nat) (s : List Nat) (hs : ∀ b ∈ s, b < 256) :
    (ofBytes (s ++ List.replicate (n - s.length) 0) &&&
      ofBytes (List.replicate s.length 0x80 ++ List.replicate (n - s.length) 0) = 0) ↔
      ∀ b ∈ s, b ≤ 0x7f := by
  rw [ofBytes_land _ _ (by simp)
    (by intro b hb
        rcases List.mem_append.mp hb with hb | hb
        · exact hs b hb
        · obtain rfl := List.eq_of_mem_replicate hb; decide)
    (by intro b hb
        rcases List.mem_append.mp hb with hb | hb
        · obtain rfl := List.eq_of_mem_replicate hb; decide
        · obtain rfl := List.eq_of_mem_replicate hb; decide)]
  rw [List.zipWith_append _ _ _ _ _ (by simp)]
  rw [zipWith_rep_right _ _ _ _ (Nat.le_refl _)]
  rw [zipWith_rep_left _ _ _ _ (by simp), List.map_replicate]
  rw [show (0 &&& 0 : Nat) = 0 by decide]
  rw [ofBytes_append_zeros, ofBytes_eq_zero]
  constructor
  · intro h b hb
    have hz := h (b &&& 0x80) (List.mem_map.mpr ⟨b, hb, rfl⟩)
    exact (byte_hi_iff b (hs b hb)).mp hz
  · intro h b hb
    obtain ⟨c, hc, rfl⟩ := List.mem_map.mp hb
    exact (byte_hi_iff c (hs c hc)).mpr (h c hc)

/-- The packed word is lane-wise below the occupied-byte mask once the
ASCII check has passed. -/
theorem forall₂_word_le_mask (s : List Nat) (k : Nat) (h7f : ∀ b ∈ s, b ≤ 0x7f) :
    List.Forall₂ (· ≤ ·) (s ++ List.replicate k 0)
      (List.replicate s.length 0x80 ++ List.replicate k 0) := by
  induction s with
  | nil =>
    simp only [List.nil_append, List.length_nil, List.replicate_zero]
    exact List.forall₂_same.mpr (fun a _ => Nat.le_refl a)
  | cons a as ih =>
    simp only [List.cons_append, List.length_cons, List.replicate_succ]
    exact List.Forall₂.cons (by have := h7f a (by simp); omega)
      (ih (fun b hb => h7f b (by simp [hb])))

/-- The borrowing `(mask - word) & mask` check is zero exactly when no
string byte is an embedded NUL (given that the ASCII check passed). -/
theorem null_check (n : Nat) (s : List Nat) (h7f : ∀ b ∈ s, b ≤ 0x7f)
    (hlen : s.length ≤ n) :
    ((M n + ofBytes (List.replicate s.length 0x80 ++ List.replicate (n - s.length) 0) -
        ofBytes (s ++ List.replicate (n - s.length) 0)) % M n &&&
      ofBytes (List.replicate s.length 0x80 ++ List.replicate (n - s.length) 0) = 0) ↔
      ∀ b ∈ s, 1 ≤ b := by
  have hf := forall₂_word_le_mask s (n - s.length) h7f
  have hle : ofBytes (s ++ List.replicate (n - s.length) 0) ≤
      ofBytes (List.replicate s.length 0x80 ++ List.replicate (n - s.length) 0) :=
    ofBytes_le_of_forall₂ _ _ hf
  have hmask_lt : ofBytes (List.replicate s.length 0x80 ++ List.replicate (n - s.length) 0)
      < M n := by
    rw [M_eq_pow]
    have h := ofBytes_lt (List.replicate s.length 0x80 ++ List.replicate (n - s.length) 0)
      (by intro b hb
          rcases List.mem_append.mp hb with hb | hb
          · obtain rfl := List.eq_of_mem_replicate hb; decide
          · obtain rfl := List.eq_of_mem_replicate hb; decide)
    have hlen2 : (List.replicate s.length 0x80 ++ List.replicate (n - s.length) 0).length = n := by
      simp
      omega
    rw [hlen2] at h
    exact h
  have e0 : (M n + ofBytes (List.replicate s.length 0x80 ++ List.replicate (n - s.length) 0) -
      ofBytes (s ++ List.replicate (n - s.length) 0)) % M n =
      ofBytes (List.replicate s.length 0x80 ++ List.replicate (n - s.length) 0) -
      ofBytes (s ++ List.replicate (n - s.length) 0) := by
    rw [show M n + ofBytes (List.replicate s.length 0x80 ++ List.replicate (n - s.length) 0) -
        ofBytes (s ++ List.replicate (n - s.length) 0) =
        M n + (ofBytes (List.replicate s.length 0x80 ++ List.replicate (n - s.length) 0) -
        ofBytes (s ++ List.replicate (n - s.length) 0)) by omega]
    rw [Nat.add_mod_left]
    exact Nat.mod_eq_of_lt (by omega)
  rw [e0, ofBytes_sub _ _ hf]
  rw [List.zipWith_append _ _ _ _ _ (by simp)]
  rw [zipWith_rep_left _ _ _ _ (Nat.le_refl _)]
  rw [zipWith_rep_left _ _ _ _ (by simp), List.map_replicate]
  rw [show (0 - 0 : Nat) = 0 by decide]
  rw [ofBytes_land _ _ (by simp)
    (by intro b hb
        rcases List.mem_append.mp hb with hb | hb
        · obtain ⟨c, hc, rfl⟩ := List.mem_map.mp hb
          show 0x80 - c < 256
          omega
        · obtain rfl := List.eq_of_mem_replicate hb; decide)
    (by intro b hb
        rcases List.mem_append.mp hb with hb | hb
        · obtain rfl := List.eq_of_mem_replicate hb; decide
        · obtain rfl := List.eq_of_mem_replicate hb; decide)]
  rw [List.zipWith_append _ _ _ _ _ (by simp)]
  rw [zipWith_rep_right _ _ _ _ (by simp), List.map_map]
  rw [zipWith_rep_left _ _ _ _ (by simp), List.map_replicate]
  rw [show (0 &&& 0 : Nat) = 0 by decide]
  rw [ofBytes_append_zeros, ofBytes_eq_zero]
  constructor
  · intro h b hb
    have hz := h ((0x80 - b) &&& 0x80) (List.mem_map.mpr ⟨b, hb, rfl⟩)
    exact (byte_null_iff b (h7f b hb)).mp hz
  · intro h b hb
    obtain ⟨c, hc, rfl⟩ := List.mem_map.mp hb
    show (0x80 - c) &&& 0x80 = 0
    exact (byte_null_iff c (h7f c hc)).mpr (h c hc)

/-- Full characterization of the generic encoder on size-valid byte
strings: non-ASCII bytes are reported first, then embedded NULs, and
otherwise the packed little-endian word is returned. -/
theorem from_str_spec (n : Nat) (s : List Nat) (hb : ∀ b ∈ s, b < 256)
    (h1 : 1 ≤ s.length) (h2 : s.length ≤ n) :
    from_str n s = if ∀ b ∈ s, b ≤ 0x7f then
        (if ∀ b ∈ s, 1 ≤ b then .ok (ofBytes s) else .error .InvalidNull)
      else .error .NonAscii := by
  simp only [from_str]
  rw [if_neg (by omega)]
  rw [mask_eq n s.length h2]
  rw [show ofBytes (List.replicate s.length 0x80) =
    ofBytes (List.replicate s.length 0x80 ++ List.replicate (n - s.length) 0) from
    (ofBytes_append_zeros _ _).symm]
  by_cases hA : ∀ b ∈ s, b ≤ 0x7f
  · rw [if_neg (not_not_intro ((nonascii_check n s hb).mpr hA))]
    by_cases hN : ∀ b ∈ s, 1 ≤ b
    · rw [if_neg (not_not_intro ((null_check n s hA h2).mpr hN))]
      rw [if_pos hA, if_pos hN, ofBytes_append_zeros]
    · rw [if_pos (fun h0 => hN ((null_check n s hA h2).mp h0))]
      rw [if_pos hA, if_neg hN]
  · rw [if_pos (fun h0 => hA ((nonascii_check n s hb).mp h0))]
    rw [if_neg hA]

/-- Size-invalid inputs always fail with `InvalidSize`. -/
theorem from_str_invalid_size (n : Nat) (s : List Nat) (h : s.length = 0 ∨ n < s.length) :
    from_str n s = .error .InvalidSize := by
  simp only [from_str]
  rw [if_pos (by omega)]

/-- What a successful encode tells us about the input. -/
theorem from_str_ok_extract (n : Nat) (s : List Nat) (w : Nat) (hb : ∀ b ∈ s, b < 256)
    (h : from_str n s = .ok w) :
    1 ≤ s.length ∧ s.length ≤ n ∧ (∀ b ∈ s, 1 ≤ b ∧ b ≤ 0x7f) ∧ w = ofBytes s := by
  by_cases hsize : s.length < 1 ∨ n < s.length
  · exfalso
    rw [from_str_invalid_size n s (by omega)] at h
    exact Except.noConfusion h
  · push_neg at hsize
    obtain ⟨hs1, hs2⟩ := hsize
    replace hs1 : 1 ≤ s.length := by omega
    rw [from_str_spec n s hb hs1 hs2] at h
    by_cases hA : ∀ b ∈ s, b ≤ 0x7f
    · rw [if_pos hA] at h
      by_cases hN : ∀ b ∈ s, 1 ≤ b
      · rw [if_pos hN] at h
        refine ⟨hs1, hs2, fun b hb2 => ⟨hN b hb2, hA b hb2⟩, ?_⟩
        exact (Except.ok.inj h).symm
      · rw [if_neg hN] at h
        exact absurd h (by simp)
    · rw [if_neg hA] at h
      exact absurd h (by simp)

/-- The hand-written `TinyStr4` length dispatch implements exactly the
generic encoder formula at capacity 4. -/
theorem tinyStr4_from_str_eq (s : List Nat) : tinyStr4_from_str s = from_str 4 s := by
  rcases hl : s.length with _ | _ | _ | _ | _ | m
  · rw [from_str_invalid_size 4 s (by omega)]
    simp only [tinyStr4_from_str, hl]
  · have hl2 : s.length = 1 := by omega
    have ht : s.take 1 = s := by rw [← hl2]; exact List.take_length s
    have hrhs : from_str 4 s = (if ofBytes (s ++ List.replicate (4 - 1) 0) &&& 0x80 ≠ 0
        then .error .NonAscii
        else if (M 4 + 0x80 - ofBytes (s ++ List.replicate (4 - 1) 0)) % M 4 &&& 0x80 ≠ 0
        then .error .InvalidNull
        else .ok (ofBytes (s ++ List.replicate (4 - 1) 0))) := by
      simp only [from_str, hl2]
      rw [if_neg (show ¬((1 : Nat) < 1 ∨ 4 < (1 : Nat)) by decide)]
      rw [show genmask 4 0x80 >>> (8 * (4 - 1)) = 0x80 by decide]
    rw [hrhs]
    simp only [tinyStr4_from_str, hl2, make_4byte_str, ht]
  · have hl2 : s.length = 2 := by omega
    have ht : s.take 2 = s := by rw [← hl2]; exact List.take_length s
    have hrhs : from_str 4 s = (if ofBytes (s ++ List.replicate (4 - 2) 0) &&& 0x8080 ≠ 0
        then .error .NonAscii
        else if (M 4 + 0x8080 - ofBytes (s ++ List.replicate (4 - 2) 0)) % M 4 &&& 0x8080 ≠ 0
        then .error .InvalidNull
        else .ok (ofBytes (s ++ List.replicate (4 - 2) 0))) := by
      simp only [from_str, hl2]
      rw [if_neg (show ¬((2 : Nat) < 1 ∨ 4 < (2 : Nat)) by decide)]
      rw [show genmask 4 0x80 >>> (8 * (4 - 2)) = 0x8080 by decide]
    rw [hrhs]
    simp only [tinyStr4_from_str, hl2, make_4byte_str, ht]
  · have hl2 : s.length = 3 := by omega
    have ht : s.take 3 = s := by rw [← hl2]; exact List.take_length s
    have hrhs : from_str 4 s = (if ofBytes (s ++ List.replicate (4 - 3) 0) &&& 0x00808080 ≠ 0
        then .error .NonAscii
        else if (M 4 + 0x00808080 - ofBytes (s ++ List.replicate (4 - 3) 0)) % M 4 &&&
          0x00808080 ≠ 0
        then .error .InvalidNull
        else .ok (ofBytes (s ++ List.replicate (4 - 3) 0))) := by
      simp only [from_str, hl2]
      rw [if_neg (show ¬((3 : Nat) < 1 ∨ 4 < (3 : Nat)) by decide)]
      rw [show genmask 4 0x80 >>> (8 * (4 - 3)) = 0x00808080 by decide]
    rw [hrhs]
    simp only [tinyStr4_from_str, hl2, make_4byte_str, ht]
  · have hl2 : s.length = 4 := by omega
    have ht : s.take 4 = s := by rw [← hl2]; exact List.take_length s
    have hrhs : from_str 4 s = (if ofBytes (s ++ List.replicate (4 - 4) 0) &&& 0x80808080 ≠ 0
        then .error .NonAscii
        else if (M 4 + 0x80808080 - ofBytes (s ++ List.replicate (4 - 4) 0)) % M 4 &&&
          0x80808080 ≠ 0
        then .error .InvalidNull
        else .ok (ofBytes (s ++ List.replicate (4 - 4) 0))) := by
      simp only [from_str, hl2]
      rw [if_neg (show ¬((4 : Nat) < 1 ∨ 4 < (4 : Nat)) by decide)]
      rw [show genmask 4 0x80 >>> (8 * (4 - 4)) = 0x80808080 by decide]
    rw [hrhs]
    simp only [tinyStr4_from_str, hl2, make_4byte_str, ht]
  · have hl2 : s.length = m + 5 := by omega
    rw [from_str_invalid_size 4 s (by omega)]
    simp only [tinyStr4_from_str, hl2]

/-! ## Decoding -/

theorem size_ofBytes_le (s : List Nat) (hub : ∀ b ∈ s, b < 256) :
    Nat.size (ofBytes s) ≤ 8 * s.length := by
  rw [Nat.size_le]
  have h := ofBytes_lt s hub
  have e : (2 : Nat) ^ (8 * s.length) = 256 ^ s.length := by
    rw [pow_mul]
    norm_num
  rw [e]
  exact h

theorem size_ofBytes_gt (s : List Nat) (hs : s ≠ []) (hlb : ∀ b ∈ s, 1 ≤ b) :
    8 * s.length - 8 < Nat.size (ofBytes s) := by
  have hlen1 : 1 ≤ s.length := List.length_pos.mpr hs
  have h1 : 1 ≤ s.getLast hs := hlb _ (List.getLast_mem hs)
  have hlow : 256 ^ (s.length - 1) ≤ ofBytes s := by
    conv_rhs => rw [← List.dropLast_append_getLast hs]
    rw [ofBytes_append]
    have e1 : ofBytes [s.getLast hs] = s.getLast hs := by simp [ofBytes]
    rw [e1, List.length_dropLast]
    have h2 : 256 ^ (s.length - 1) * 1 ≤ 256 ^ (s.length - 1) * s.getLast hs :=
      Nat.mul_le_mul_left _ h1
    omega
  rw [show 8 * s.length - 8 = 8 * (s.length - 1) by omega, Nat.lt_size]
  calc (2 : Nat) ^ (8 * (s.length - 1)) = 256 ^ (s.length - 1) := by
        rw [pow_mul]
        norm_num
  _ ≤ ofBytes s := hlow

/-- `deref` recovers the string length from the leading-zero count. -/
theorem strLen_ofBytes (n : Nat) (s : List Nat) (h1 : 1 ≤ s.length) (h2 : s.length ≤ n)
    (hlb : ∀ b ∈ s, 1 ≤ b) (hub : ∀ b ∈ s, b < 256) :
    strLen n (ofBytes s) = s.length := by
  have hu := size_ofBytes_le s hub
  have hg := size_ofBytes_gt s (by intro he; rw [he] at h1; simp at h1) hlb
  unfold strLen
  omega

/-- `deref` decodes a packed word back to its byte string. -/
theorem deref_ofBytes (n : Nat) (s : List Nat) (h1 : 1 ≤ s.length) (h2 : s.length ≤ n)
    (hlb : ∀ b ∈ s, 1 ≤ b) (hub : ∀ b ∈ s, b < 256) :
    deref n (ofBytes s) = s := by
  unfold deref
  rw [strLen_ofBytes n s h1 h2 hlb hub]
  apply List.ext_getElem
  · simp
  · intro i hi1 hi2
    simp only [List.getElem_map, List.getElem_range]
    rw [getByte_ofBytes s hub i]
    exact List.getD_eq_getElem s 0 hi2

/-! ## Ordering -/

theorem compare_add_right (x y c : Nat) : compare (x + c) (y + c) = compare x y := by
  rcases Nat.lt_trichotomy x y with h | h | h
  · rw [Nat.compare_eq_lt.mpr h, Nat.compare_eq_lt.mpr (by omega)]
  · subst h
    rw [Nat.compare_eq_eq.mpr rfl, Nat.compare_eq_eq.mpr rfl]
  · rw [Nat.compare_eq_gt.mpr h, Nat.compare_eq_gt.mpr (by omega)]

/-- Comparing byte-reversed packed integers is lexicographic comparison of
the (equal-length) lane lists. -/
theorem compare_ofBytes_reverse (xs : List Nat) : ∀ ys : List Nat, xs.length = ys.length →
    (∀ b ∈ xs, b < 256) → (∀ b ∈ ys, b < 256) →
    compare (ofBytes xs.reverse) (ofBytes ys.reverse) = lexCompare xs ys := by
  induction xs with
  | nil =>
    intro ys h hx hy
    cases ys with
    | nil => rfl
    | cons b bs => simp at h
  | cons a as ih =>
    intro ys h hx hy
    cases ys with
    | nil => simp at h
    | cons b bs =>
      simp only [List.length_cons, Nat.succ_inj] at h
      have hxa : a < 256 := hx a (by simp)
      have hyb : b < 256 := hy b (by simp)
      have hxas : ∀ c ∈ as, c < 256 := fun c hc => hx c (by simp [hc])
      have hybs : ∀ c ∈ bs, c < 256 := fun c hc => hy c (by simp [hc])
      have hA : ofBytes as.reverse < 256 ^ bs.length := by
        have h2 := ofBytes_lt as.reverse (by intro c hc; exact hxas c (List.mem_reverse.mp hc))
        simpa [h] using h2
      have hB : ofBytes bs.reverse < 256 ^ bs.length := by
        have h2 := ofBytes_lt bs.reverse (by intro c hc; exact hybs c (List.mem_reverse.mp hc))
        simpa using h2
      rw [List.reverse_cons, List.reverse_cons, ofBytes_append, ofBytes_append]
      simp only [List.length_reverse]
      rw [show ofBytes [a] = a by simp [ofBytes], show ofBytes [b] = b by simp [ofBytes], h]
      rcases Nat.lt_trichotomy a b with hab | hab | hab
      · have hlt : ofBytes as.reverse + 256 ^ bs.length * a <
            ofBytes bs.reverse + 256 ^ bs.length * b := by
          calc ofBytes as.reverse + 256 ^ bs.length * a
              < 256 ^ bs.length + 256 ^ bs.length * a := by omega
          _ = 256 ^ bs.length * (a + 1) := by ring
          _ ≤ 256 ^ bs.length * b := Nat.mul_le_mul_left _ (by omega)
          _ ≤ ofBytes bs.reverse + 256 ^ bs.length * b := by omega
        rw [Nat.compare_eq_lt.mpr hlt]
        simp only [lexCompare]
        rw [Nat.compare_eq_lt.mpr hab]
      · subst hab
        rw [compare_add_right]
        rw [ih bs h hxas hybs]
        simp only [lexCompare]
        rw [Nat.compare_eq_eq.mpr rfl]
      · have hgt : ofBytes bs.reverse + 256 ^ bs.length * b <
            ofBytes as.reverse + 256 ^ bs.length * a := by
          calc ofBytes bs.reverse + 256 ^ bs.length * b
              < 256 ^ bs.length + 256 ^ bs.length * b := by omega
          _ = 256 ^ bs.length * (b + 1) := by ring
          _ ≤ 256 ^ bs.length * a := Nat.mul_le_mul_left _ (by omega)
          _ ≤ ofBytes as.reverse + 256 ^ bs.length * a := by omega
        rw [Nat.compare_eq_gt.mpr hgt]
        simp only [lexCompare]
        rw [Nat.compare_eq_gt.mpr hab]

theorem lexCompare_self (l : List Nat) : lexCompare l l = .eq := by
  induction l with
  | nil => rfl
  | cons a as ih =>
    simp only [lexCompare]
    rw [Nat.compare_eq_eq.mpr rfl]
    exact ih

/-- Zero padding does not affect lexicographic comparison of strings of
non-zero bytes. -/
theorem lexCompare_pad (s : List Nat) : ∀ (t : List Nat) (j k : Nat),
    (∀ b ∈ s, 1 ≤ b) → (∀ b ∈ t, 1 ≤ b) → s.length + j = t.length + k →
    lexCompare (s ++ List.replicate j 0) (t ++ List.replicate k 0) = lexCompare s t := by
  induction s with
  | nil =>
    intro t j k hs ht hlen
    cases t with
    | nil =>
      have hjk : j = k := by simpa using hlen
      subst hjk
      simp only [List.nil_append]
      rw [lexCompare_self]
      rfl
    | cons b bs =>
      obtain ⟨j2, rfl⟩ : ∃ j2, j = j2 + 1 := ⟨j - 1, by simp at hlen; omega⟩
      simp only [List.nil_append, List.replicate_succ, List.cons_append, lexCompare]
      rw [Nat.compare_eq_lt.mpr (show (0 : Nat) < b from ht b (by simp))]
  | cons a as ih =>
    intro t j k hs ht hlen
    cases t with
    | nil =>
      obtain ⟨k2, rfl⟩ : ∃ k2, k = k2 + 1 := ⟨k - 1, by simp at hlen; omega⟩
      simp only [List.nil_append, List.replicate_succ, List.cons_append, lexCompare]
      rw [Nat.compare_eq_gt.mpr (show (0 : Nat) < a from hs a (by simp))]
    | cons b bs =>
      simp only [List.cons_append, lexCompare]
      rcases Nat.lt_trichotomy a b with hab | hab | hab
      · rw [Nat.compare_eq_lt.mpr hab]
      · subst hab
        rw [Nat.compare_eq_eq.mpr rfl]
        exact ih bs j k (fun c hc => hs c (by simp [hc])) (fun c hc => ht c (by simp [hc]))
          (by simp at hlen; omega)
      · rw [Nat.compare_eq_gt.mpr hab]

/-! ## Remaining helpers for the claims -/

theorem title_map2 (n a : Nat) (as : List Nat) (hn : as.length + 1 = n)
    (hp : ∀ b ∈ a :: as, b ≤ 0x7f) :
    to_ascii_titlecase n (ofBytes (a :: as)) = ofBytes (raiseChar a :: as.map lowerChar) := by
  subst hn
  exact title_map a as hp

theorem raiseChar_zero : raiseChar 0 = 0 := by decide

theorem lowerChar_zero : lowerChar 0 = 0 := by decide

theorem raiseChar_valid : ∀ b : Nat, b < 128 → 1 ≤ b → 1 ≤ raiseChar b ∧ raiseChar b ≤ 0x7f := by
  decide

theorem lowerChar_valid : ∀ b : Nat, b < 128 → 1 ≤ b → 1 ≤ lowerChar b ∧ lowerChar b ≤ 0x7f := by
  decide

/-- Entries of the padded lane list of a valid string are ASCII. -/
theorem padded_le_7f (n : Nat) (s : List Nat) (hb : ∀ b ∈ s, 1 ≤ b ∧ b ≤ 0x7f) :
    ∀ b ∈ s ++ List.replicate (n - s.length) 0, b ≤ 0x7f := by
  intro b hbm
  rcases List.mem_append.mp hbm with hm | hm
  · exact (hb b hm).2
  · obtain rfl := List.eq_of_mem_replicate hm
    norm_num

theorem padded_lt_256 (n : Nat) (s : List Nat) (hb : ∀ b ∈ s, b < 256) :
    ∀ b ∈ s ++ List.replicate (n - s.length) 0, b < 256 := by
  intro b hbm
  rcases List.mem_append.mp hbm with hm | hm
  · exact hb b hm
  · obtain rfl := List.eq_of_mem_replicate hm
    norm_num

theorem toBytes_padded (n : Nat) (s : List Nat) (h2 : s.length ≤ n) (hb : ∀ b ∈ s, b < 256) :
    toBytes n (ofBytes (s ++ List.replicate (n - s.length) 0)) =
      s ++ List.replicate (n - s.length) 0 :=
  toBytes_ofBytes n _ (by simp; omega) (padded_lt_256 n s hb)

/-! ## The claims -/

/-- **C1** (code bug).  The claim states that `is_ascii_alphanumeric` is
true exactly when every character is in `[0-9] ∪ [A-Z] ∪ [a-z]`, in
particular true on digit strings.  The code's formula only tests the
letter ranges after case-folding, so the valid packed string "1" (the
digit 0x31, which the claim requires to be classified alphanumeric)
evaluates to `false`. -/
theorem claim_C1 :
    from_str 4 [0x31] = .ok 0x31 ∧ (0x30 ≤ 0x31 ∧ 0x31 ≤ 0x39) ∧
      is_ascii_alphanumeric 4 0x31 = false :=
  ⟨rfl, by norm_num, rfl⟩

/-- **C2** (counterexample to the claim as stated).  The string
"\x00䀀" (UTF-8 bytes `[0x00, 0xE4, 0x80, 0x80]`) contains a zero
code point before its intended end, yet encoding it at capacity 4 fails
with `NonAscii`, not `InvalidNull`: the high-bit check runs first. -/
theorem claim_C2_counterexample :
    from_str 4 [0x00, 0xE4, 0x80, 0x80] = .error .NonAscii ∧
      (Except.error Error.NonAscii : Except Error Nat) ≠ .error .InvalidNull :=
  ⟨rfl, by simp⟩

/-- **C2** (amended).  For every capacity and every size-valid input all
of whose bytes are ASCII (≤ 0x7F), the presence of a zero byte makes
encoding fail with `InvalidNull` — in particular never with `NonAscii`. -/
theorem claim_C2 (n : Nat) (s : List Nat) (h1 : 1 ≤ s.length) (h2 : s.length ≤ n)
    (h7f : ∀ b ∈ s, b ≤ 0x7f) (hz : 0 ∈ s) :
    from_str n s = .error .InvalidNull := by
  rw [from_str_spec n s (fun b hb => by have := h7f b hb; omega) h1 h2]
  rw [if_pos h7f, if_neg (fun hall => by have := hall 0 hz; omega)]

theorem claim_C2_witness : from_str 4 [0x61, 0x00, 0x62] = .error .InvalidNull :=
  claim_C2 4 [0x61, 0x00, 0x62] (by decide) (by decide) (by decide) (by decide)

/-- **C3**.  Every non-empty ASCII string of non-zero bytes within
capacity encodes successfully, and decoding the packed value returns
exactly the original string. -/
theorem claim_C3 (n : Nat) (s : List Nat) (h1 : 1 ≤ s.length) (h2 : s.length ≤ n)
    (hb : ∀ b ∈ s, 1 ≤ b ∧ b ≤ 0x7f) :
    from_str n s = .ok (ofBytes s) ∧ deref n (ofBytes s) = s := by
  constructor
  · rw [from_str_spec n s (fun b hbm => by have := (hb b hbm).2; omega) h1 h2]
    rw [if_pos (fun b hbm => (hb b hbm).2), if_pos (fun b hbm => (hb b hbm).1)]
  · exact deref_ofBytes n s h1 h2 (fun b hbm => (hb b hbm).1)
      (fun b hbm => by have := (hb b hbm).2; omega)

theorem claim_C3_witness :
    from_str 4 [0x65, 0x6e] = .ok (ofBytes [0x65, 0x6e]) ∧
      deref 4 (ofBytes [0x65, 0x6e]) = [0x65, 0x6e] :=
  claim_C3 4 [0x65, 0x6e] (by decide) (by decide) (by decide)

/-- **C4**.  For any two byte strings that both encode successfully at the
same capacity, comparing the packed values (by comparing the byte-reversed
integers, as `Ord::cmp` does) agrees with byte-wise lexicographic
comparison of the strings, prefix cases included. -/
theorem claim_C4 (n : Nat) (s t : List Nat) (hs : ∀ b ∈ s, b < 256) (ht : ∀ b ∈ t, b < 256)
    (ws wt : Nat) (hes : from_str n s = .ok ws) (het : from_str n t = .ok wt) :
    cmp n ws wt = lexCompare s t := by
  obtain ⟨hs1, hs2, hsv, rfl⟩ := from_str_ok_extract n s ws hs hes
  obtain ⟨ht1, ht2, htv, rfl⟩ := from_str_ok_extract n t wt ht het
  have hts : toBytes n (ofBytes s) = s ++ List.replicate (n - s.length) 0 := by
    rw [← ofBytes_append_zeros s (n - s.length)]
    exact toBytes_padded n s hs2 hs
  have htt : toBytes n (ofBytes t) = t ++ List.replicate (n - t.length) 0 := by
    rw [← ofBytes_append_zeros t (n - t.length)]
    exact toBytes_padded n t ht2 ht
  unfold cmp to_be
  rw [hts, htt]
  rw [compare_ofBytes_reverse _ _ (by simp; omega) (padded_lt_256 n s hs)
    (padded_lt_256 n t ht)]
  exact lexCompare_pad s t _ _ (fun b hbm => (hsv b hbm).1) (fun b hbm => (htv b hbm).1)
    (by omega)

theorem claim_C4_witness : cmp 4 0x7266 0x687a = lexCompare [0x66, 0x72] [0x7a, 0x68] :=
  claim_C4 4 [0x66, 0x72] [0x7a, 0x68] (by decide) (by decide) 0x7266 0x687a rfl rfl

/-- **C5**.  On every valid packed value, `to_ascii_titlecase` case-raises
the first character when it is a lowercase letter (leaving digits and
uppercase letters unchanged) and unconditionally lowercases every
remaining character. -/
theorem claim_C5 (n : Nat) (s : List Nat) (h1 : 1 ≤ s.length) (h2 : s.length ≤ n)
    (hb : ∀ b ∈ s, 1 ≤ b ∧ b ≤ 0x7f) :
    to_ascii_titlecase n (ofBytes (s ++ List.replicate (n - s.length) 0)) =
      ofBytes (titlecaseSpec s ++ List.replicate (n - s.length) 0) := by
  cases s with
  | nil => simp at h1
  | cons a as =>
    rw [show (a :: as) ++ List.replicate (n - (a :: as).length) 0 =
      a :: (as ++ List.replicate (n - (as.length + 1)) 0) from by simp]
    rw [title_map2 n a (as ++ List.replicate (n - (as.length + 1)) 0)
      (by have h2b : as.length + 1 ≤ n := by simpa using h2
          simp
          omega)
      (by intro b hbm
          rcases List.mem_cons.mp hbm with rfl | hbm
          · exact (hb b (by simp)).2
          · rcases List.mem_append.mp hbm with hm | hm
            · exact (hb b (by simp [hm])).2
            · obtain rfl := List.eq_of_mem_replicate hm
              norm_num)]
    rw [List.map_append, List.map_replicate, lowerChar_zero]
    simp only [titlecaseSpec, List.cons_append, List.length_cons]

theorem claim_C5_witness :
    to_ascii_titlecase 4 (ofBytes ([0x41, 0x42, 0x43, 0x44] ++
        List.replicate (4 - [0x41, 0x42, 0x43, 0x44].length) 0)) =
      ofBytes (titlecaseSpec [0x41, 0x42, 0x43, 0x44] ++
        List.replicate (4 - [0x41, 0x42, 0x43, 0x44].length) 0) :=
  claim_C5 4 [0x41, 0x42, 0x43, 0x44] (by decide) (by decide) (by decide)

/-- **C6**.  On every valid packed value, `to_ascii_uppercase` maps every
lane through `raiseChar` (lowercase letters lose the 0x20 bit, all other
lanes, zero padding included, pass through unchanged), and
`to_ascii_lowercase` maps every lane through `lowerChar` (uppercase
letters gain the 0x20 bit, all other lanes pass through unchanged). -/
theorem claim_C6 (n w : Nat) (h : ValidWord n w) :
    to_ascii_uppercase n w = ofBytes ((toBytes n w).map raiseChar) ∧
      to_ascii_lowercase n w = ofBytes ((toBytes n w).map lowerChar) := by
  obtain ⟨s, h1, h2, hb, rfl⟩ := h
  rw [toBytes_padded n s h2 (fun b hbm => by have := (hb b hbm).2; omega)]
  exact ⟨upper_map n _ (by simp; omega) (padded_le_7f n s hb),
    lower_map n _ (by simp; omega) (padded_le_7f n s hb)⟩

theorem claim_C6_witness :
    to_ascii_uppercase 4 0x6261 = ofBytes ((toBytes 4 0x6261).map raiseChar) ∧
      to_ascii_lowercase 4 0x6261 = ofBytes ((toBytes 4 0x6261).map lowerChar) :=
  claim_C6 4 0x6261 ⟨[0x61, 0x62], by decide, by decide, by decide, by decide⟩

/-- **C7**.  The three case transformations preserve all three data-model
invariants: applied to any valid packed value they yield a valid packed
value (non-zero word, no zero byte in an occupied lane, no high bit set,
zero padding intact). -/
theorem claim_C7 (n w : Nat) (h : ValidWord n w) :
    ValidWord n (to_ascii_uppercase n w) ∧ ValidWord n (to_ascii_lowercase n w) ∧
      ValidWord n (to_ascii_titlecase n w) := by
  obtain ⟨s, h1, h2, hb, rfl⟩ := h
  refine ⟨?_, ?_, ?_⟩
  · rw [upper_map n _ (by simp; omega) (padded_le_7f n s hb)]
    rw [List.map_append, List.map_replicate, raiseChar_zero]
    exact ⟨s.map raiseChar, by simpa using h1, by simpa using h2,
      (by intro b hbm
          obtain ⟨c, hc, rfl⟩ := List.mem_map.mp hbm
          exact raiseChar_valid c (by have := (hb c hc).2; omega) (hb c hc).1),
      by simp⟩
  · rw [lower_map n _ (by simp; omega) (padded_le_7f n s hb)]
    rw [List.map_append, List.map_replicate, lowerChar_zero]
    exact ⟨s.map lowerChar, by simpa using h1, by simpa using h2,
      (by intro b hbm
          obtain ⟨c, hc, rfl⟩ := List.mem_map.mp hbm
          exact lowerChar_valid c (by have := (hb c hc).2; omega) (hb c hc).1),
      by simp⟩
  · cases s with
    | nil => simp at h1
    | cons a as =>
      rw [show (a :: as) ++ List.replicate (n - (a :: as).length) 0 =
        a :: (as ++ List.replicate (n - (as.length + 1)) 0) from by simp]
      rw [title_map2 n a (as ++ List.replicate (n - (as.length + 1)) 0)
      (by have h2b : as.length + 1 ≤ n := by simpa using h2
          simp
          omega)
        (by intro b hbm
            rcases List.mem_cons.mp hbm with rfl | hbm
            · exact (hb b (by simp)).2
            · rcases List.mem_append.mp hbm with hm | hm
              · exact (hb b (by simp [hm])).2
              · obtain rfl := List.eq_of_mem_replicate hm
                norm_num)]
      rw [List.map_append, List.map_replicate, lowerChar_zero]
      refine ⟨raiseChar a :: as.map lowerChar, by simp, by simpa using h2, ?_, ?_⟩
      · intro b hbm
        rcases List.mem_cons.mp hbm with rfl | hbm
        · exact raiseChar_valid a (by have := (hb a (by simp)).2; omega) (hb a (by simp)).1
        · obtain ⟨c, hc, rfl⟩ := List.mem_map.mp hbm
          exact lowerChar_valid c (by have := (hb c (by simp [hc])).2; omega)
            (hb c (by simp [hc])).1
      · simp

theorem claim_C7_witness :
    ValidWord 4 (to_ascii_uppercase 4 0x6948) ∧ ValidWord 4 (to_ascii_lowercase 4 0x6948) ∧
      ValidWord 4 (to_ascii_titlecase 4 0x6948) :=
  claim_C7 4 0x6948 ⟨[0x48, 0x69], by decide, by decide, by decide, by decide⟩

/-- **C8**.  For both the generic encoder and the hand-written `TinyStr4`
dispatch: empty or over-capacity input always fails with `InvalidSize`,
and an otherwise-valid input of exactly the capacity encodes
successfully. -/
theorem claim_C8 (n : Nat) (s : List Nat) :
    ((s.length = 0 ∨ n < s.length) → from_str n s = .error .InvalidSize) ∧
      (1 ≤ n → s.length = n → (∀ b ∈ s, 1 ≤ b ∧ b ≤ 0x7f) →
        from_str n s = .ok (ofBytes s)) ∧
      ((s.length = 0 ∨ 4 < s.length) → tinyStr4_from_str s = .error .InvalidSize) ∧
      (s.length = 4 → (∀ b ∈ s, 1 ≤ b ∧ b ≤ 0x7f) →
        tinyStr4_from_str s = .ok (ofBytes s)) := by
  refine ⟨fun h => from_str_invalid_size n s h, ?_, ?_, ?_⟩
  · intro hn hlen hb
    rw [from_str_spec n s (fun b hbm => by have := (hb b hbm).2; omega) (by omega) (by omega)]
    rw [if_pos (fun b hbm => (hb b hbm).2), if_pos (fun b hbm => (hb b hbm).1)]
  · intro h
    rw [tinyStr4_from_str_eq]
    exact from_str_invalid_size 4 s h
  · intro hlen hb
    rw [tinyStr4_from_str_eq]
    rw [from_str_spec 4 s (fun b hbm => by have := (hb b hbm).2; omega) (by omega) (by omega)]
    rw [if_pos (fun b hbm => (hb b hbm).2), if_pos (fun b hbm => (hb b hbm).1)]

theorem claim_C8_witness :
    from_str 4 ([] : List Nat) = .error .InvalidSize ∧
      from_str 4 [0x31, 0x32, 0x33, 0x34] = .ok (ofBytes [0x31, 0x32, 0x33, 0x34]) ∧
      tinyStr4_from_str [0x31, 0x32, 0x33, 0x34, 0x35] = .error .InvalidSize ∧
      tinyStr4_from_str [0x31, 0x32, 0x33, 0x34] = .ok (ofBytes [0x31, 0x32, 0x33, 0x34]) :=
  ⟨(claim_C8 4 []).1 (by decide),
    (claim_C8 4 [0x31, 0x32, 0x33, 0x34]).2.1 (by decide) (by decide) (by decide),
    (claim_C8 4 [0x31, 0x32, 0x33, 0x34, 0x35]).2.2.1 (by decide),
    (claim_C8 4 [0x31, 0x32, 0x33, 0x34]).2.2.2 (by decide) (by decide)⟩

/-- **C9**.  On the little-endian host the unchecked constructor
(`new_unchecked` = `from_le`) and the raw-integer conversion
(`From<$ty> for $ut` = `to_le`) are mutually inverse: both round trips are
identities, for every valid packed value and every non-zero in-range raw
integer. -/
theorem claim_C9 (n w x : Nat) (_hw : ValidWord n w) (_hx1 : x ≠ 0) (_hx2 : x < M n) :
    new_unchecked (raw_value w) = w ∧ raw_value (new_unchecked x) = x :=
  ⟨rfl, rfl⟩

theorem claim_C9_witness :
    new_unchecked (raw_value 0x6e65) = 0x6e65 ∧ raw_value (new_unchecked 0x6e65) = 0x6e65 :=
  claim_C9 4 0x6e65 0x6e65 ⟨[0x65, 0x6e], by decide, by decide, by decide, by decide⟩
    (by decide) (by decide)

/-- **C10**.  The hand-written `TinyStr4` parser (length dispatch with
hard-coded little-endian masks 0x80, 0x8080, 0x00808080, 0x80808080) is
extensionally equal to the generic `impl_from_str!` encoder instantiated
at capacity 4: identical packed value or identical error on every
input. -/
theorem claim_C10 (s : List Nat) : tinyStr4_from_str s = from_str 4 s :=
  tinyStr4_from_str_eq s

end TinyStr
